import Mathlib

/-!
Shallow embedding of `translatorelevenlabs.py`, the single source file of the
RnzTElevenLabs video-translation pipeline, together with proofs about its
behaviour.  Pure computations (duration check, audio chunking, transcript
joining, output-path derivation) are translated directly; the effectful
pipeline (`recognize_speech`, `process_video`) is modelled as a deterministic
function of an environment that fixes the outcome of every external call
(moviepy, the speech-recognition service, Gemini, ElevenLabs), returning the
trace of observable events (file creations/deletions, progress reports,
service calls) next to the Python return value.
-/

namespace Translator

/-- `check_video_duration` (source lines 58-66): probing the video either
fails (`none`, any exception from `VideoFileClip`) or yields a duration in
seconds; on success the verdict is `duration <= 90`, on exception `False`. -/
def check_video_duration (probe : Option ℚ) : Bool :=
  match probe with
  | none => false
  | some duration => decide (duration ≤ 90)

/-- `chunk_length` from `recognize_speech` (line 89): `30 * 1000` milliseconds. -/
def chunkLengthMs : ℕ := 30 * 1000

/-- Python `range(0, stop, step)` for `step > 0`: the multiples of `step`
below `stop`, in increasing order. -/
def pyRange (stop step : ℕ) : List ℕ :=
  (List.range ((stop + step - 1) / step)).map (· * step)

/-- Python slice `audio[a : b]` on a pydub `AudioSegment` of length `total`
milliseconds (`0 ≤ a ≤ b`): the half-open interval clamped to the audio,
returned as (start, stop) in milliseconds. -/
def sliceBounds (total a b : ℕ) : ℕ × ℕ :=
  (min a total, min b total)

/-- The chunk list built at line 90:
`[audio[i : i + chunk_length] for i in range(0, len(audio), chunk_length)]`,
each chunk represented by its (start, stop) bounds in milliseconds. -/
def chunkBounds (total : ℕ) : List (ℕ × ℕ) :=
  (pyRange total chunkLengthMs).map (fun i => sliceBounds total i (i + chunkLengthMs))

/-- Number of chunks produced for an audio of `total` milliseconds. -/
def numChunks (total : ℕ) : ℕ := (chunkBounds total).length

/-- Chunk `i`'s bounds, as an indexed accessor (defaulting to `(0,0)` out of
range). -/
def seg (total i : ℕ) : ℕ × ℕ := (chunkBounds total).getD i (0, 0)

theorem pyRange_length (stop step : ℕ) :
    (pyRange stop step).length = (stop + step - 1) / step := by
  simp [pyRange]

theorem chunkBounds_length (total : ℕ) :
    (chunkBounds total).length = (total + chunkLengthMs - 1) / chunkLengthMs := by
  simp [chunkBounds, pyRange_length]

theorem numChunks_eq (total : ℕ) :
    numChunks total = (total + 29999) / 30000 := by
  simp [numChunks, chunkBounds_length, chunkLengthMs]

theorem lt_numChunks_iff {total i : ℕ} :
    i < numChunks total ↔ i * chunkLengthMs < total := by
  rw [numChunks_eq]
  show i < (total + 29999) / 30000 ↔ i * (30 * 1000) < total
  omega

theorem seg_eq {total i : ℕ} (h : i < numChunks total) :
    seg total i = (i * chunkLengthMs, min ((i + 1) * chunkLengthMs) total) := by
  have hlen : i < (pyRange total chunkLengthMs).length := by
    simpa [pyRange_length, ← chunkBounds_length] using h
  have hi : (pyRange total chunkLengthMs).getD i 0 = i * chunkLengthMs := by
    rw [List.getD_eq_getElem _ _ hlen]
    simp [pyRange]
  have hmem : seg total i = sliceBounds total (i * chunkLengthMs) (i * chunkLengthMs + chunkLengthMs) := by
    have : i < (chunkBounds total).length := by rwa [← numChunks]
    rw [seg, List.getD_eq_getElem _ _ this]
    simp only [chunkBounds, List.getElem_map]
    rw [show (pyRange total chunkLengthMs)[i] = i * chunkLengthMs from by
      rw [← List.getD_eq_getElem _ 0 hlen]; exact hi]
  have hstart : i * chunkLengthMs < total := lt_numChunks_iff.mp h
  have hstart' : i * 30000 < total := by
    have := hstart
    simp only [chunkLengthMs] at this
    omega
  rw [hmem, sliceBounds]
  simp only [Prod.mk.injEq, chunkLengthMs]
  omega

theorem seg_start {total i : ℕ} (h : i < numChunks total) :
    (seg total i).1 = i * chunkLengthMs := by rw [seg_eq h]

theorem seg_stop {total i : ℕ} (h : i < numChunks total) :
    (seg total i).2 = min ((i + 1) * chunkLengthMs) total := by rw [seg_eq h]

/-- C2: `check_video_duration` accepts exactly the probe-able videos of
duration at most 90 seconds; longer videos and probing errors are rejected. -/
theorem duration_guard_fails_closed :
    (∀ probe : Option ℚ, check_video_duration probe = true ↔
        ∃ d, probe = some d ∧ d ≤ 90) ∧
    (∀ d : ℚ, 90 < d → check_video_duration (some d) = false) ∧
    check_video_duration none = false := by
  refine ⟨fun probe => ?_, fun d hd => ?_, rfl⟩
  · cases probe with
    | none => simp [check_video_duration]
    | some d => simp [check_video_duration]
  · simp [check_video_duration]
    linarith

/-- Witness for C2 at concrete durations: a 120-second video is rejected and
a probing failure is rejected. -/
theorem duration_guard_fails_closed_witness :
    check_video_duration (some 120) = false ∧ check_video_duration none = false :=
  ⟨duration_guard_fails_closed.2.1 120 (by norm_num), duration_guard_fails_closed.2.2⟩

/-- C3: the chunks built at line 90 satisfy `seg i = (i*L, min ((i+1)*L, total))`
with `L = 30000` ms; consecutive chunks meet exactly, and every instant
`t < total` lies in exactly one chunk (so the chunks are contiguous,
non-overlapping, and partition `[0, total)`). -/
theorem segmenting_transcriber_partition (total : ℕ) :
    (∀ i, i < numChunks total →
      seg total i = (i * chunkLengthMs, min ((i + 1) * chunkLengthMs) total)) ∧
    (∀ i, i + 1 < numChunks total → (seg total i).2 = (seg total (i + 1)).1) ∧
    (∀ t, t < total → ∃! i, i < numChunks total ∧
      (seg total i).1 ≤ t ∧ t < (seg total i).2) := by
  have L30 : chunkLengthMs = 30000 := by simp [chunkLengthMs]
  refine ⟨fun i h => seg_eq h, fun i h => ?_, fun t ht => ?_⟩
  · have h0 : i < numChunks total := by omega
    rw [seg_stop h0, seg_start h]
    have : (i + 1) * chunkLengthMs < total := lt_numChunks_iff.mp h
    omega
  · refine ⟨t / 30000, ⟨?_, ?_, ?_⟩, ?_⟩
    · rw [lt_numChunks_iff, L30]
      omega
    · have h : t / 30000 < numChunks total := by
        rw [lt_numChunks_iff, L30]; omega
      rw [seg_start h, L30]
      omega
    · have h : t / 30000 < numChunks total := by
        rw [lt_numChunks_iff, L30]; omega
      rw [seg_stop h, L30]
      omega
    · rintro j ⟨hj, hj1, hj2⟩
      rw [seg_start hj, L30] at hj1
      rw [seg_stop hj, L30] at hj2
      omega

/-- Witness for C3 on a 45-second audio: two chunks, `[0,30000)` and
`[30000,45000)`, with chunk 1 starting where chunk 0 stops. -/
theorem segmenting_transcriber_partition_witness :
    seg 45000 1 = (30000, 45000) ∧ (seg 45000 0).2 = (seg 45000 1).1 := by
  obtain ⟨h1, h2, -⟩ := segmenting_transcriber_partition 45000
  constructor
  · have := h1 1 (by decide)
    simpa [chunkLengthMs] using this
  · exact h2 0 (by decide)

/-- Temporary and output files touched by a pipeline run, identified
abstractly: the wav extracted at line 74, the per-chunk wavs of line 95, the
ElevenLabs mp3 of line 29, and the final `_translated.mp4`. -/
inductive FileId where
  | extractedAudio
  | chunkFile (i : ℕ)
  | synthAudio
  | output
deriving DecidableEq, Repr

/-- Observable events of a run, in program order: file creations/deletions,
`st.progress` reports, and the two paid service calls whose presence the spec
constrains (Gemini translate, ElevenLabs synthesis).  `remuxCall` records the
source video whose visual stream is kept and the fixed output codecs of
line 163. -/
inductive Event where
  | created (f : FileId)
  | deleted (f : FileId)
  | progress (n : ℕ)
  | translateCall
  | synthCall
  | remuxCall (sourceVideo videoCodec audioCodec : String)
deriving DecidableEq, Repr

/-- Outcome of processing one 30-second chunk inside the loop of lines
94-109: `recognized t` (line 101 returns `t`), `unknownValue`
(`sr.UnknownValueError`, line 104), `requestError` (`sr.RequestError`,
line 106), or `fatal` — any other exception escaping the inner handler after
the chunk file was created (it unwinds to the `except` of line 113 before the
`os.remove` of line 109 runs). -/
inductive ChunkOutcome where
  | recognized (text : String)
  | unknownValue
  | requestError
  | fatal
deriving DecidableEq, Repr

/-- Environment fixing every external outcome seen by `recognize_speech`:
whether `AudioSegment.from_wav` raises (line 88), the audio length in
milliseconds, and each chunk's outcome. -/
structure RecognizeEnv where
  openFail : Bool
  audioLenMs : ℕ
  chunk : ℕ → ChunkOutcome

/-- The chunk loop of lines 94-109 over the listed chunk indices: each
completed iteration creates and then deletes its chunk file and, on
recognition, appends the text (line 102); `unknownValue` / `requestError`
contribute nothing and continue; `fatal` aborts the whole function with the
chunk file left behind. Returns the event list and, unless aborted, the
accumulated `transcribed_text` list in index order. -/
def chunkLoop (outcome : ℕ → ChunkOutcome) : List ℕ → List Event × Option (List String)
  | [] => ([], some [])
  | i :: rest =>
    match outcome i with
    | .recognized t =>
      let r := chunkLoop outcome rest
      (.created (.chunkFile i) :: .deleted (.chunkFile i) :: r.1, r.2.map (t :: ·))
    | .unknownValue =>
      let r := chunkLoop outcome rest
      (.created (.chunkFile i) :: .deleted (.chunkFile i) :: r.1, r.2)
    | .requestError =>
      let r := chunkLoop outcome rest
      (.created (.chunkFile i) :: .deleted (.chunkFile i) :: r.1, r.2)
    | .fatal => ([.created (.chunkFile i)], none)

/-- `recognize_speech` (lines 83-115): on open failure the outer handler
returns `None`; otherwise the chunk loop runs over `range(len(chunks))` and,
if it completes, line 111 returns `" ".join(transcribed_text)`; a `fatal`
chunk outcome makes the outer handler return `None`. -/
def recognize_speech (env : RecognizeEnv) : List Event × Option String :=
  if env.openFail then ([], none)
  else
    let r := chunkLoop env.chunk (List.range (numChunks env.audioLenMs))
    (r.1, r.2.map (String.intercalate " "))

/-- The stages of `process_video` whose exceptions reach the outer handler of
line 178 (opening the video at line 125, the Gemini call at lines 142-147,
the remux write at line 163). -/
inductive StageError where
  | openVideo
  | translation
  | remux
deriving DecidableEq, Repr

/-- Environment fixing every external outcome seen by `process_video`:
whether `VideoFileClip` raises, whether `extract_audio` yields a path
(its own handler returns `None` on failure, creating no durable file),
the recognition environment, the Gemini outcome (`ok text` or an exception),
whether `generate_speech_eleven_labs` yields a path (its handler returns
`None` on failure), whether `write_videofile` raises, and the input path. -/
structure PipelineEnv where
  openVideoFail : Bool
  extractOk : Bool
  recEnv : RecognizeEnv
  translateOutcome : Except Unit String
  synthOk : Bool
  remuxFail : Bool
  videoPath : String

/-- Last index of `c` in `l`, Python `str.rfind` (`none` for `-1`). -/
def rfindIdx (c : Char) : List Char → Option ℕ
  | [] => none
  | a :: rest =>
    match rfindIdx c rest with
    | some i => some (i + 1)
    | none => if a = c then some 0 else none

/-- `os.path.splitext(p)[0]` (posixpath): split at the last `.` that lies
after the last `/` and after at least one non-`.` character of the basename;
if there is no such dot the whole path is returned. -/
def splitextFst (p : String) : String :=
  (rfindIdx '.' p.data).elim p (fun dotIndex =>
    let filenameIndex : ℕ := ((rfindIdx '/' p.data).map (· + 1)).getD 0
    if filenameIndex ≤ dotIndex ∧
        ((p.data.drop filenameIndex).take (dotIndex - filenameIndex)).any (· ≠ '.') then
      String.mk (p.data.take dotIndex)
    else p)

/-- Line 159: `output_path = os.path.splitext(video_path)[0] + "_translated.mp4"`. -/
def outputPath (videoPath : String) : String :=
  splitextFst videoPath ++ "_translated.mp4"

/-- `process_video` without its outer exception handler (lines 120-176):
the trace of events and either a normal return (`ok (some path)` on success,
`ok none` for the explicit `return None` checks of lines 129-130, 136-137,
153-154) or the stage exception that unwinds (`error _`). -/
def process_videoE (env : PipelineEnv) : List Event × Except StageError (Option String) :=
  if env.openVideoFail then ([.progress 0], .error .openVideo)
  else if !env.extractOk then ([.progress 0], .ok none)
  else
    let pre : List Event := [.progress 0, .created .extractedAudio, .progress 25]
    let r := recognize_speech env.recEnv
    match r.2 with
    | none => (pre ++ r.1, .ok none)
    | some text =>
      if text = "" then (pre ++ r.1, .ok none)
      else
        match env.translateOutcome with
        | .error _ => (pre ++ r.1 ++ [.progress 50, .translateCall], .error .translation)
        | .ok _ =>
          if !env.synthOk then
            (pre ++ r.1 ++ [.progress 50, .translateCall, .progress 75, .synthCall], .ok none)
          else if env.remuxFail then
            (pre ++ r.1 ++ [.progress 50, .translateCall, .progress 75, .synthCall,
              .created .synthAudio, .progress 85,
              .remuxCall env.videoPath "libx264" "aac"], .error .remux)
          else
            (pre ++ r.1 ++ [.progress 50, .translateCall, .progress 75, .synthCall,
              .created .synthAudio, .progress 85,
              .remuxCall env.videoPath "libx264" "aac",
              .created .output, .deleted .extractedAudio, .deleted .synthAudio,
              .progress 100], .ok (some (outputPath env.videoPath)))

/-- `process_video` (lines 118-180): the body wrapped in the outer
`try/except` that converts any stage exception into a `None` return. -/
def process_video (env : PipelineEnv) : List Event × Option String :=
  let r := process_videoE env
  (r.1, match r.2 with
        | .ok v => v
        | .error _ => none)

/-- Tail of a separator-join: `sep ++ a₁ ++ sep ++ a₂ ++ ...`. -/
def joinTail (sep : String) : List String → String
  | [] => ""
  | a :: rest => sep ++ a ++ joinTail sep rest

theorem intercalate_go_eq (sep : String) :
    ∀ (as : List String) (acc : String),
      String.intercalate.go acc sep as = acc ++ joinTail sep as
  | [], acc => by simp [String.intercalate.go, joinTail]
  | a :: as, acc => by
    rw [String.intercalate.go, intercalate_go_eq sep as (acc ++ sep ++ a)]
    simp [joinTail, String.append_assoc]

theorem intercalate_cons (sep a : String) (as : List String) :
    String.intercalate sep (a :: as) = a ++ joinTail sep as := by
  rw [String.intercalate, intercalate_go_eq]

/-- The fragments that line 102 appends: the recognized texts, in segment
order, soft failures skipped. -/
def keptTexts : List ChunkOutcome → List String
  | [] => []
  | .recognized t :: rest => t :: keptTexts rest
  | .unknownValue :: rest => keptTexts rest
  | .requestError :: rest => keptTexts rest
  | .fatal :: rest => keptTexts rest

/-- Modelled from the spec's wording: fragments "concatenated with a single
separating space" — exactly one space between consecutive kept fragments,
nothing before the first or after the last. -/
def specJoin : List String → String
  | [] => ""
  | [t] => t
  | t :: t' :: rest => t ++ " " ++ specJoin (t' :: rest)

theorem intercalate_eq_specJoin : ∀ l : List String,
    String.intercalate " " l = specJoin l
  | [] => rfl
  | [t] => by
    rw [intercalate_cons]
    simp [joinTail, specJoin]
  | t :: t' :: rest => by
    rw [intercalate_cons]
    simp only [specJoin]
    rw [show joinTail " " (t' :: rest) = " " ++ (t' ++ joinTail " " rest) from by
      simp [joinTail, String.append_assoc]]
    rw [← intercalate_cons, intercalate_eq_specJoin (t' :: rest)]
    simp [String.append_assoc]

/-- Every event the chunk loop emits concerns a chunk file. -/
theorem chunkLoop_events_shape (o : ℕ → ChunkOutcome) (idxs : List ℕ) :
    ∀ e ∈ (chunkLoop o idxs).1,
      (∃ i, e = .created (.chunkFile i)) ∨ (∃ i, e = .deleted (.chunkFile i)) := by
  induction idxs with
  | nil => simp [chunkLoop]
  | cons i rest ih =>
    intro e he
    cases ho : o i <;> simp only [chunkLoop, ho, List.mem_cons] at he
    case recognized t =>
      rcases he with he | he | he
      · exact Or.inl ⟨i, he⟩
      · exact Or.inr ⟨i, he⟩
      · exact ih e he
    case unknownValue =>
      rcases he with he | he | he
      · exact Or.inl ⟨i, he⟩
      · exact Or.inr ⟨i, he⟩
      · exact ih e he
    case requestError =>
      rcases he with he | he | he
      · exact Or.inl ⟨i, he⟩
      · exact Or.inr ⟨i, he⟩
      · exact ih e he
    case fatal =>
      rcases he with he | he
      · exact Or.inl ⟨i, he⟩
      · simp at he

/-- If no chunk outcome is fatal the loop completes, delivering exactly the
recognized texts in index order. -/
theorem chunkLoop_result (o : ℕ → ChunkOutcome) (idxs : List ℕ)
    (h : ∀ i ∈ idxs, o i ≠ .fatal) :
    (chunkLoop o idxs).2 = some (keptTexts (idxs.map o)) := by
  induction idxs with
  | nil => rfl
  | cons i rest ih =>
    have hrest := ih (fun j hj => h j (List.mem_cons_of_mem i hj))
    cases ho : o i <;>
      simp only [chunkLoop, ho, List.map_cons, keptTexts, hrest, Option.map_some] <;>
      try rfl
    exact absurd ho (h i (List.mem_cons_self i rest))

/-- If no chunk outcome is fatal, every chunk's temporary file is deleted. -/
theorem chunkLoop_deletes (o : ℕ → ChunkOutcome) (idxs : List ℕ)
    (h : ∀ i ∈ idxs, o i ≠ .fatal) :
    ∀ i ∈ idxs, Event.deleted (.chunkFile i) ∈ (chunkLoop o idxs).1 := by
  induction idxs with
  | nil => simp
  | cons j rest ih =>
    intro i hi
    have hj := h j (List.mem_cons_self j rest)
    have hrest := ih (fun k hk => h k (List.mem_cons_of_mem j hk))
    rcases List.mem_cons.mp hi with rfl | hi
    · cases ho : o i <;> simp only [chunkLoop, ho, List.mem_cons] <;> try simp
      exact absurd ho hj
    · have hmem := hrest i hi
      cases ho : o j <;> simp only [chunkLoop, ho, List.mem_cons] <;> try simp [hmem]
      exact absurd ho hj

/-- A fatal chunk outcome anywhere in the list aborts the loop. -/
theorem chunkLoop_fatal (o : ℕ → ChunkOutcome) (idxs : List ℕ)
    (h : ∃ i ∈ idxs, o i = .fatal) :
    (chunkLoop o idxs).2 = none := by
  induction idxs with
  | nil => simp at h
  | cons j rest ih =>
    rcases h with ⟨i, hi, hfat⟩
    rcases List.mem_cons.mp hi with rfl | hi
    · rw [chunkLoop, hfat]
    · cases ho : o j <;> simp only [chunkLoop, ho] <;> simp [ih ⟨i, hi, hfat⟩]

/-- Soft failures contribute no fragment. -/
theorem keptTexts_eq_nil {l : List ChunkOutcome}
    (h : ∀ c ∈ l, c = .unknownValue ∨ c = .requestError) : keptTexts l = [] := by
  induction l with
  | nil => rfl
  | cons c rest ih =>
    have hc := h c (List.mem_cons_self c rest)
    have hrest := ih (fun d hd => h d (List.mem_cons_of_mem c hd))
    rcases hc with rfl | rfl <;> simp [keptTexts, hrest]

/-- `recognize_speech`, fully unfolded on the non-exceptional path. -/
theorem recognize_speech_join (env : RecognizeEnv)
    (hopen : env.openFail = false)
    (hfatal : ∀ i ∈ List.range (numChunks env.audioLenMs), env.chunk i ≠ .fatal) :
    (recognize_speech env).2 =
      some (specJoin (keptTexts
        ((List.range (numChunks env.audioLenMs)).map env.chunk))) := by
  simp [recognize_speech, hopen, chunkLoop_result env.chunk _ hfatal,
    intercalate_eq_specJoin]

/-- Every event `recognize_speech` emits concerns a chunk file. -/
theorem recognize_events_shape (env : RecognizeEnv) :
    ∀ e ∈ (recognize_speech env).1,
      (∃ i, e = .created (.chunkFile i)) ∨ (∃ i, e = .deleted (.chunkFile i)) := by
  cases h : env.openFail <;> simp only [recognize_speech, h] <;> simp
  exact fun e he => chunkLoop_events_shape env.chunk _ e he

/-- The leading events of every run that reaches audio extraction. -/
def preEvents : List Event := [.progress 0, .created .extractedAudio, .progress 25]

/-- Exhaustive characterization of `process_video`: one case per exit point
of the Python function, each giving the exact trace and return value. -/
theorem process_video_char (env : PipelineEnv) :
    (env.openVideoFail = true ∧ process_video env = ([.progress 0], none)) ∨
    (env.openVideoFail = false ∧ env.extractOk = false ∧
      process_video env = ([.progress 0], none)) ∨
    (env.openVideoFail = false ∧ env.extractOk = true ∧
      ((recognize_speech env.recEnv).2 = none ∨ (recognize_speech env.recEnv).2 = some "") ∧
      process_video env = (preEvents ++ (recognize_speech env.recEnv).1, none)) ∨
    (∃ text, env.openVideoFail = false ∧ env.extractOk = true ∧
      (recognize_speech env.recEnv).2 = some text ∧ text ≠ "" ∧
      ((env.translateOutcome = .error () ∧
          process_video env = (preEvents ++ (recognize_speech env.recEnv).1 ++
            [.progress 50, .translateCall], none)) ∨
       (∃ t, env.translateOutcome = .ok t ∧
         ((env.synthOk = false ∧
            process_video env = (preEvents ++ (recognize_speech env.recEnv).1 ++
              [.progress 50, .translateCall, .progress 75, .synthCall], none)) ∨
          (env.synthOk = true ∧ env.remuxFail = true ∧
            process_video env = (preEvents ++ (recognize_speech env.recEnv).1 ++
              [.progress 50, .translateCall, .progress 75, .synthCall,
               .created .synthAudio, .progress 85,
               .remuxCall env.videoPath "libx264" "aac"], none)) ∨
          (env.synthOk = true ∧ env.remuxFail = false ∧
            process_video env = (preEvents ++ (recognize_speech env.recEnv).1 ++
              [.progress 50, .translateCall, .progress 75, .synthCall,
               .created .synthAudio, .progress 85,
               .remuxCall env.videoPath "libx264" "aac",
               .created .output, .deleted .extractedAudio, .deleted .synthAudio,
               .progress 100], some (outputPath env.videoPath))))))) := by
  cases hov : env.openVideoFail with
  | true =>
    exact Or.inl ⟨rfl, by simp [process_video, process_videoE, hov]⟩
  | false =>
  cases hex : env.extractOk with
  | false =>
    exact Or.inr (Or.inl ⟨rfl, rfl, by simp [process_video, process_videoE, hov, hex]⟩)
  | true =>
  rcases hrc : (recognize_speech env.recEnv).2 with _ | text
  · refine Or.inr (Or.inr (Or.inl ⟨rfl, rfl, Or.inl rfl, ?_⟩))
    simp [process_video, process_videoE, hov, hex, hrc, preEvents]
  · by_cases ht : text = ""
    · subst ht
      refine Or.inr (Or.inr (Or.inl ⟨rfl, rfl, Or.inr rfl, ?_⟩))
      simp [process_video, process_videoE, hov, hex, hrc, preEvents]
    · refine Or.inr (Or.inr (Or.inr ⟨text, rfl, rfl, rfl, ht, ?_⟩))
      cases htr : env.translateOutcome with
      | error e =>
        cases e
        refine Or.inl ⟨rfl, ?_⟩
        simp [process_video, process_videoE, hov, hex, hrc, ht, htr, preEvents]
      | ok t =>
        refine Or.inr ⟨t, rfl, ?_⟩
        cases hsy : env.synthOk with
        | false =>
          refine Or.inl ⟨rfl, ?_⟩
          simp [process_video, process_videoE, hov, hex, hrc, ht, htr, hsy, preEvents]
        | true =>
        cases hrm : env.remuxFail with
        | true =>
          refine Or.inr (Or.inl ⟨rfl, rfl, ?_⟩)
          simp [process_video, process_videoE, hov, hex, hrc, ht, htr, hsy, hrm, preEvents]
        | false =>
          refine Or.inr (Or.inr ⟨rfl, rfl, ?_⟩)
          simp [process_video, process_videoE, hov, hex, hrc, ht, htr, hsy, hrm, preEvents]

/-- An event that is not a chunk-file event never appears in the recognition
trace. -/
theorem not_in_recognize (env : RecognizeEnv) (e : Event)
    (h : ∀ i, e ≠ .created (.chunkFile i) ∧ e ≠ .deleted (.chunkFile i)) :
    e ∉ (recognize_speech env).1 := by
  intro hmem
  rcases recognize_events_shape env e hmem with ⟨i, he⟩ | ⟨i, he⟩
  · exact absurd he (h i).1
  · exact absurd he (h i).2

/-- A run whose recognition result is falsy (`None` or `""`) stops right
after recognition with a `None` return. -/
theorem process_abort_falsy (env : PipelineEnv)
    (hov : env.openVideoFail = false) (hex : env.extractOk = true)
    (hr : (recognize_speech env.recEnv).2 = none ∨ (recognize_speech env.recEnv).2 = some "") :
    process_video env = (preEvents ++ (recognize_speech env.recEnv).1, none) := by
  rcases process_video_char env with ⟨h, _⟩ | ⟨_, h, _⟩ | ⟨_, _, _, hp⟩ |
    ⟨text, _, _, hsome, hne, _⟩
  · rw [hov] at h; exact absurd h (by simp)
  · rw [hex] at h; exact absurd h (by simp)
  · exact hp
  · rcases hr with hr | hr
    · rw [hr] at hsome; exact absurd hsome (by simp)
    · rw [hr] at hsome
      exact absurd (Option.some.inj hsome).symm hne

/-- C4: on the non-exceptional path the SourceText is exactly the recognized
fragments, in segment-index order, joined by single separating spaces, with
soft-failed segments contributing nothing (so no leading, trailing, or
doubled separator is introduced). -/
theorem transcriber_source_text (env : RecognizeEnv)
    (hopen : env.openFail = false)
    (hfatal : ∀ i ∈ List.range (numChunks env.audioLenMs), env.chunk i ≠ .fatal) :
    (recognize_speech env).2 =
      some (specJoin (keptTexts
        ((List.range (numChunks env.audioLenMs)).map env.chunk))) :=
  recognize_speech_join env hopen hfatal

/-- Concrete 90-second audio for the C4 witness: chunk 0 and 2 recognized,
chunk 1 unintelligible. -/
def recEnvC4 : RecognizeEnv :=
  { openFail := false, audioLenMs := 90000,
    chunk := fun i =>
      if i = 0 then .recognized "salam" else
      if i = 1 then .unknownValue else .recognized "dunya" }

/-- Witness for C4: with chunk 1 skipped the joined SourceText is
`"salam dunya"` — one space, no artifacts from the skipped segment. -/
theorem transcriber_source_text_witness :
    (recognize_speech recEnvC4).2 = some "salam dunya" := by
  have h := transcriber_source_text recEnvC4 rfl (by decide)
  rw [h]
  rfl

/-- C5: if every segment soft-fails, the run aborts with a `None` result
before translation: no translation call, no synthesis call, and every
segment's temporary file was already deleted. -/
theorem empty_transcript_aborts (env : PipelineEnv)
    (hov : env.openVideoFail = false) (hex : env.extractOk = true)
    (hro : env.recEnv.openFail = false)
    (hall : ∀ i ∈ List.range (numChunks env.recEnv.audioLenMs),
      env.recEnv.chunk i = .unknownValue ∨ env.recEnv.chunk i = .requestError) :
    (process_video env).2 = none ∧
    Event.translateCall ∉ (process_video env).1 ∧
    Event.synthCall ∉ (process_video env).1 ∧
    ∀ i ∈ List.range (numChunks env.recEnv.audioLenMs),
      Event.deleted (.chunkFile i) ∈ (process_video env).1 := by
  have hfatal : ∀ i ∈ List.range (numChunks env.recEnv.audioLenMs),
      env.recEnv.chunk i ≠ .fatal := by
    intro i hi; rcases hall i hi with h | h <;> simp [h]
  have hkept : keptTexts
      ((List.range (numChunks env.recEnv.audioLenMs)).map env.recEnv.chunk) = [] := by
    apply keptTexts_eq_nil
    intro c hc
    rcases List.mem_map.mp hc with ⟨i, hi, rfl⟩
    exact hall i hi
  have hrc : (recognize_speech env.recEnv).2 = some "" := by
    rw [recognize_speech_join env.recEnv hro hfatal, hkept]
    rfl
  have hpv := process_abort_falsy env hov hex (Or.inr hrc)
  rw [hpv]
  refine ⟨rfl, ?_, ?_, ?_⟩
  · intro hmem
    rcases List.mem_append.mp hmem with h | h
    · simp [preEvents] at h
    · exact not_in_recognize env.recEnv _ (fun i => by simp) h
  · intro hmem
    rcases List.mem_append.mp hmem with h | h
    · simp [preEvents] at h
    · exact not_in_recognize env.recEnv _ (fun i => by simp) h
  · intro i hi
    apply List.mem_append_right
    have hdel := chunkLoop_deletes env.recEnv.chunk _ hfatal i hi
    simpa [recognize_speech, hro] using hdel

/-- Concrete environment for the C5 witness: a 60-second audio whose two
chunks both soft-fail; everything downstream would have succeeded. -/
def envC5 : PipelineEnv :=
  { openVideoFail := false, extractOk := true,
    recEnv := { openFail := false, audioLenMs := 60000, chunk := fun _ => .unknownValue },
    translateOutcome := .ok "text", synthOk := true, remuxFail := false,
    videoPath := "/tmp/video.mp4" }

/-- Witness for C5: the all-soft-fail run returns `None`, issues no
translation or synthesis call, and both chunk files are deleted. -/
theorem empty_transcript_aborts_witness :
    (process_video envC5).2 = none ∧
    Event.translateCall ∉ (process_video envC5).1 ∧
    Event.deleted (.chunkFile 0) ∈ (process_video envC5).1 ∧
    Event.deleted (.chunkFile 1) ∈ (process_video envC5).1 := by
  have h := empty_transcript_aborts envC5 rfl rfl rfl (by decide)
  exact ⟨h.1, h.2.1, h.2.2.2 0 (by decide), h.2.2.2 1 (by decide)⟩

/-- C9: `process_video` is total at its interface — the wrapped body either
returns normally (the value is passed through) or raises a stage exception,
which the outer handler converts to `None`; hence the result is always
`some path` or `none`. -/
theorem process_video_totality :
    (∀ env e, (process_videoE env).2 = .error e → (process_video env).2 = none) ∧
    (∀ env v, (process_videoE env).2 = .ok v → (process_video env).2 = v) ∧
    (∀ env, (process_video env).2 = none ∨ ∃ p, (process_video env).2 = some p) := by
  refine ⟨fun env e h => ?_, fun env v h => ?_, fun env => ?_⟩
  · simp [process_video, h]
  · simp [process_video, h]
  · cases h : (process_video env).2 with
    | none => exact Or.inl rfl
    | some p => exact Or.inr ⟨p, rfl⟩

/-- Environment for the C9 witness: opening the video raises. -/
def envOpenFail : PipelineEnv :=
  { openVideoFail := true, extractOk := true,
    recEnv := { openFail := false, audioLenMs := 0, chunk := fun _ => .unknownValue },
    translateOutcome := .ok "text", synthOk := true, remuxFail := false,
    videoPath := "/tmp/video.mp4" }

/-- Witness for C9: the open-video exception is converted to a `None`
return. -/
theorem process_video_totality_witness :
    (process_video envOpenFail).2 = none :=
  process_video_totality.1 envOpenFail .openVideo rfl

/-- C10: `recognize_speech` returns `some ""` when every chunk soft-fails but
`none` when `from_wav` raises or a chunk raises outside the per-chunk
handlers; the orchestrator treats both falsy values identically, aborting
with `None` before any translation call. -/
theorem recognize_failure_shapes :
    (∀ env : RecognizeEnv, env.openFail = false →
      (∀ i ∈ List.range (numChunks env.audioLenMs),
        env.chunk i = .unknownValue ∨ env.chunk i = .requestError) →
      (recognize_speech env).2 = some "") ∧
    (∀ env : RecognizeEnv, env.openFail = true → (recognize_speech env).2 = none) ∧
    (∀ env : RecognizeEnv, (∃ i ∈ List.range (numChunks env.audioLenMs),
        env.chunk i = .fatal) →
      (recognize_speech env).2 = none) ∧
    (∀ env : PipelineEnv, env.openVideoFail = false → env.extractOk = true →
      ((recognize_speech env.recEnv).2 = none ∨ (recognize_speech env.recEnv).2 = some "") →
      (process_video env).2 = none ∧ Event.translateCall ∉ (process_video env).1) := by
  refine ⟨fun env hopen hall => ?_, fun env hopen => ?_, fun env hfat => ?_,
    fun env hov hex hr => ?_⟩
  · have hfatal : ∀ i ∈ List.range (numChunks env.audioLenMs), env.chunk i ≠ .fatal := by
      intro i hi; rcases hall i hi with h | h <;> simp [h]
    have hkept : keptTexts ((List.range (numChunks env.audioLenMs)).map env.chunk) = [] := by
      apply keptTexts_eq_nil
      intro c hc
      rcases List.mem_map.mp hc with ⟨i, hi, rfl⟩
      exact hall i hi
    rw [recognize_speech_join env hopen hfatal, hkept]
    rfl
  · simp [recognize_speech, hopen]
  · cases hopen : env.openFail with
    | true => simp [recognize_speech, hopen]
    | false => simp [recognize_speech, hopen, chunkLoop_fatal env.chunk _ hfat]
  · rw [process_abort_falsy env hov hex hr]
    refine ⟨rfl, ?_⟩
    intro hmem
    rcases List.mem_append.mp hmem with h | h
    · simp [preEvents] at h
    · exact not_in_recognize env.recEnv _ (fun i => by simp) h

/-- Recognition environment for the C10 witness: a fatal chunk exception. -/
def recEnvFatal : RecognizeEnv :=
  { openFail := false, audioLenMs := 30001, chunk := fun i => if i = 1 then .fatal else .recognized "x" }

/-- Witness for C10: all-soft-fail yields `some ""` while a fatal chunk
yields `none`, and the orchestrator aborts on the `some ""` shape. -/
theorem recognize_failure_shapes_witness :
    (recognize_speech envC5.recEnv).2 = some "" ∧
    (recognize_speech recEnvFatal).2 = none ∧
    (process_video envC5).2 = none := by
  refine ⟨recognize_failure_shapes.1 envC5.recEnv rfl (by decide), ?_, ?_⟩
  · exact recognize_failure_shapes.2.2.1 recEnvFatal ⟨1, by decide, rfl⟩
  · exact (recognize_failure_shapes.2.2.2 envC5 rfl rfl
      (Or.inr (recognize_failure_shapes.1 envC5.recEnv rfl (by decide)))).1

/-- The percentage carried by a progress event. -/
def progressOf : Event → Option ℕ
  | .progress n => some n
  | _ => none

/-- The sequence of percentages reported outward during a trace. -/
def progressValues (tr : List Event) : List ℕ := tr.filterMap progressOf

/-- The fixed stage-completion checkpoints of `process_video`. -/
def checkpoints : List ℕ := [0, 25, 50, 75, 85, 100]

theorem progressValues_append (a b : List Event) :
    progressValues (a ++ b) = progressValues a ++ progressValues b := by
  simp [progressValues]

theorem progressValues_recognize (env : RecognizeEnv) :
    progressValues (recognize_speech env).1 = [] := by
  rw [progressValues, List.filterMap_eq_nil_iff]
  intro e he
  rcases recognize_events_shape env e he with ⟨i, rfl⟩ | ⟨i, rfl⟩ <;> rfl

/-- C8: within any single run the reported percentages are monotonically
non-decreasing, drawn from the fixed checkpoints 0/25/50/75/85/100, and 100
is reported only when the run returns successfully. -/
theorem progress_checkpoints_monotone (env : PipelineEnv) :
    List.Chain' (· ≤ ·) (progressValues (process_video env).1) ∧
    (∀ n ∈ progressValues (process_video env).1, n ∈ checkpoints) ∧
    (100 ∈ progressValues (process_video env).1 → (process_video env).2.isSome) := by
  have hrec := progressValues_recognize env.recEnv
  rcases process_video_char env with ⟨_, hp⟩ | ⟨_, _, hp⟩ | ⟨_, _, _, hp⟩ |
    ⟨text, _, _, _, _, ⟨_, hp⟩ | ⟨t, _, ⟨_, hp⟩ | ⟨_, _, hp⟩ | ⟨_, _, hp⟩⟩⟩ <;>
    rw [hp] <;>
    simp only [progressValues_append, hrec, preEvents] <;>
    refine ⟨?_, ?_, ?_⟩ <;>
    simp [progressValues, progressOf, checkpoints]

/-- Witness for C8: on the all-soft-fail run, 25 is among the reported
percentages, and the theorem places it among the checkpoints. -/
theorem progress_checkpoints_monotone_witness :
    25 ∈ checkpoints :=
  (progress_checkpoints_monotone envC5).2.1 25 (by decide)

/-- A run that fails after extraction succeeded: `from_wav` raises during
recognition, so `recognize_speech` returns `None` and `process_video`
returns `None` with the extracted audio file still on storage. -/
def envLeak : PipelineEnv :=
  { openVideoFail := false, extractOk := true,
    recEnv := { openFail := true, audioLenMs := 0, chunk := fun _ => .unknownValue },
    translateOutcome := .ok "text", synthOk := true, remuxFail := false,
    videoPath := "/tmp/video.mp4" }

/-- Counterexample to C1: on this failing run the extracted audio asset was
created before the failure point but is never deleted — the claimed cleanup
guarantee does not hold. -/
theorem cleanup_claim_counterexample :
    (process_video envLeak).2 = none ∧
    Event.created .extractedAudio ∈ (process_video envLeak).1 ∧
    Event.deleted .extractedAudio ∉ (process_video envLeak).1 := by decide

/-- C1 as amended: the deletion of the extracted-audio and synthesized-audio
temporaries happens only on the success path (lines 167-172 run after the
remux); on every failing run no deletion of either is ever performed, so any
of them created before the failure remains on storage. -/
theorem cleanup_only_on_success (env : PipelineEnv) :
    ((process_video env).2 ≠ none →
      Event.deleted .extractedAudio ∈ (process_video env).1 ∧
      Event.deleted .synthAudio ∈ (process_video env).1) ∧
    ((process_video env).2 = none →
      Event.deleted .extractedAudio ∉ (process_video env).1 ∧
      Event.deleted .synthAudio ∉ (process_video env).1) := by
  rcases process_video_char env with ⟨_, hp⟩ | ⟨_, _, hp⟩ | ⟨_, _, _, hp⟩ |
    ⟨text, _, _, _, _, ⟨_, hp⟩ | ⟨t, _, ⟨_, hp⟩ | ⟨_, _, hp⟩ | ⟨_, _, hp⟩⟩⟩ <;>
    rw [hp] <;> constructor <;> intro h
  · simp at h
  · simp
  · simp at h
  · simp
  · simp at h
  · constructor <;> intro hmem <;> rcases List.mem_append.mp hmem with hm | hm <;>
      first
        | simp [preEvents] at hm
        | exact not_in_recognize env.recEnv _ (fun i => by simp) hm
  · simp at h
  · constructor <;> intro hmem <;>
      rcases List.mem_append.mp hmem with hm | hm
    · rcases List.mem_append.mp hm with hm' | hm'
      · simp [preEvents] at hm'
      · exact not_in_recognize env.recEnv _ (fun i => by simp) hm'
    · simp at hm
    · rcases List.mem_append.mp hm with hm' | hm'
      · simp [preEvents] at hm'
      · exact not_in_recognize env.recEnv _ (fun i => by simp) hm'
    · simp at hm
  · simp at h
  · constructor <;> intro hmem <;>
      rcases List.mem_append.mp hmem with hm | hm
    · rcases List.mem_append.mp hm with hm' | hm'
      · simp [preEvents] at hm'
      · exact not_in_recognize env.recEnv _ (fun i => by simp) hm'
    · simp at hm
    · rcases List.mem_append.mp hm with hm' | hm'
      · simp [preEvents] at hm'
      · exact not_in_recognize env.recEnv _ (fun i => by simp) hm'
    · simp at hm
  · simp at h
  · constructor <;> intro hmem <;>
      rcases List.mem_append.mp hmem with hm | hm
    · rcases List.mem_append.mp hm with hm' | hm'
      · simp [preEvents] at hm'
      · exact not_in_recognize env.recEnv _ (fun i => by simp) hm'
    · simp at hm
    · rcases List.mem_append.mp hm with hm' | hm'
      · simp [preEvents] at hm'
      · exact not_in_recognize env.recEnv _ (fun i => by simp) hm'
    · simp at hm
  · exact ⟨by simp, by simp⟩
  · simp at h

/-- A fully successful run used by several witnesses. -/
def envOk : PipelineEnv :=
  { openVideoFail := false, extractOk := true,
    recEnv := { openFail := false, audioLenMs := 1000, chunk := fun _ => .recognized "hello" },
    translateOutcome := .ok "hi", synthOk := true, remuxFail := false,
    videoPath := "/tmp/video.mp4" }

/-- Witness for the amended C1: the successful run deletes the extracted
audio; the failing run `envLeak` does not. -/
theorem cleanup_only_on_success_witness :
    Event.deleted .extractedAudio ∈ (process_video envOk).1 ∧
    Event.deleted .extractedAudio ∉ (process_video envLeak).1 :=
  ⟨((cleanup_only_on_success envOk).1 (by decide)).1,
   ((cleanup_only_on_success envLeak).2 (by decide)).1⟩

/-- A run whose translation stage returns an empty string: Gemini's
`response.text` is `""` but no exception is raised. -/
def envEmptyTranslation : PipelineEnv :=
  { openVideoFail := false, extractOk := true,
    recEnv := { openFail := false, audioLenMs := 1000, chunk := fun _ => .recognized "hello" },
    translateOutcome := .ok "", synthOk := true, remuxFail := false,
    videoPath := "/tmp/video.mp4" }

/-- Counterexample to C6: with an empty translated text the run does not
abort — `process_video` proceeds to call ElevenLabs synthesis and returns a
success result, contradicting the claimed `TranslationError` abort. -/
theorem translation_empty_counterexample :
    envEmptyTranslation.translateOutcome = .ok "" ∧
    Event.synthCall ∈ (process_video envEmptyTranslation).1 ∧
    (process_video envEmptyTranslation).2 ≠ none :=
  ⟨rfl, by decide, by decide⟩

/-- C6 as amended: a translation-service exception (quota, malformed
response) aborts the run with a `None` result and no synthesis call; but an
empty translated text is not detected — whenever control reaches the
translation stage and it returns any text, including `""`, the synthesis
call is made. -/
theorem translation_error_aborts (env : PipelineEnv) :
    (env.translateOutcome = .error () →
      (process_video env).2 = none ∧ Event.synthCall ∉ (process_video env).1) ∧
    (∀ t text, env.openVideoFail = false → env.extractOk = true →
      (recognize_speech env.recEnv).2 = some text → text ≠ "" →
      env.translateOutcome = .ok t →
      Event.synthCall ∈ (process_video env).1) := by
  constructor
  · intro herr
    rcases process_video_char env with ⟨_, hp⟩ | ⟨_, _, hp⟩ | ⟨_, _, _, hp⟩ |
      ⟨text, _, _, _, _, ⟨_, hp⟩ | ⟨t, hok, _⟩⟩
    · rw [hp]
      exact ⟨rfl, by simp⟩
    · rw [hp]
      exact ⟨rfl, by simp⟩
    · rw [hp]
      refine ⟨rfl, ?_⟩
      intro hmem
      rcases List.mem_append.mp hmem with hm | hm
      · simp [preEvents] at hm
      · exact not_in_recognize env.recEnv _ (fun i => by simp) hm
    · rw [hp]
      refine ⟨rfl, ?_⟩
      intro hmem
      rcases List.mem_append.mp hmem with hm | hm
      · rcases List.mem_append.mp hm with hm' | hm'
        · simp [preEvents] at hm'
        · exact not_in_recognize env.recEnv _ (fun i => by simp) hm'
      · simp at hm
    · rw [herr] at hok
      exact absurd hok (by simp)
  · intro t text hov hex hrc hne htr
    rcases process_video_char env with ⟨h, _⟩ | ⟨_, h, _⟩ | ⟨_, _, hr, _⟩ |
      ⟨text', _, _, hsome, hne', ⟨herr, _⟩ | ⟨t', _, ⟨_, hp⟩ | ⟨_, _, hp⟩ | ⟨_, _, hp⟩⟩⟩
    · rw [hov] at h; exact absurd h (by simp)
    · rw [hex] at h; exact absurd h (by simp)
    · rcases hr with hr | hr
      · rw [hrc] at hr; exact absurd hr (by simp)
      · rw [hrc] at hr
        exact absurd (Option.some.inj hr) hne
    · rw [htr] at herr
      exact absurd herr (by simp)
    · rw [hp]; simp
    · rw [hp]; simp
    · rw [hp]; simp

/-- A run whose translation stage raises. -/
def envTransErr : PipelineEnv :=
  { openVideoFail := false, extractOk := true,
    recEnv := { openFail := false, audioLenMs := 1000, chunk := fun _ => .recognized "hello" },
    translateOutcome := .error (), synthOk := true, remuxFail := false,
    videoPath := "/tmp/video.mp4" }

/-- Witness for the amended C6: the raising translation aborts with no
synthesis call; the empty-text translation still leads to a synthesis
call. -/
theorem translation_error_aborts_witness :
    ((process_video envTransErr).2 = none ∧
      Event.synthCall ∉ (process_video envTransErr).1) ∧
    Event.synthCall ∈ (process_video envEmptyTranslation).1 :=
  ⟨(translation_error_aborts envTransErr).1 rfl,
   (translation_error_aborts envEmptyTranslation).2 "" "hello" rfl rfl
     (by decide) (by decide) rfl⟩

theorem rfindIdx_append (c : Char) (xs ys : List Char) :
    rfindIdx c (xs ++ ys) =
      (match rfindIdx c ys with
       | some i => some (xs.length + i)
       | none => rfindIdx c xs) := by
  induction xs with
  | nil =>
    cases h : rfindIdx c ys <;> simp [h, rfindIdx]
  | cons a rest ih =>
    show rfindIdx c (a :: (rest ++ ys)) = _
    rw [rfindIdx, ih]
    cases h : rfindIdx c ys with
    | some i =>
      simp only [List.length_cons]
      congr 1
      omega
    | none => rw [rfindIdx]

theorem rfindIdx_lt_length {c : Char} : ∀ {l : List Char} {k : ℕ},
    rfindIdx c l = some k → k < l.length := by
  intro l
  induction l with
  | nil => intro k h; simp [rfindIdx] at h
  | cons a rest ih =>
    intro k h
    rw [rfindIdx] at h
    cases hr : rfindIdx c rest with
    | some i =>
      rw [hr] at h
      have := ih hr
      simp at h
      simp [← h]
      omega
    | none =>
      rw [hr] at h
      by_cases hac : a = c
      · simp [hac] at h
        simp [← h]
      · simp [hac] at h

/-- On a path of the form `s ++ ".mp4"` whose last character before the
suffix is neither `.` nor `/`, `splitext` strips exactly the `.mp4`. -/
theorem splitextFst_append_mp4 (s : String)
    (h : ∃ ch, s.data.getLast? = some ch ∧ ch ≠ '.' ∧ ch ≠ '/') :
    splitextFst (s ++ ".mp4") = s := by
  obtain ⟨ch, hlast, hdot, hsep⟩ := h
  have hsplit : s.data.dropLast ++ [ch] = s.data :=
    List.dropLast_append_getLast? ch (by simp [hlast])
  have hdata : (s ++ ".mp4").data = s.data ++ ['.', 'm', 'p', '4'] := by
    simp
  have hslen : s.data.length = s.data.dropLast.length + 1 := by
    conv_lhs => rw [← hsplit]
    simp
  have hdotIdx : rfindIdx '.' (s.data ++ ['.', 'm', 'p', '4']) = some s.data.length := by
    rw [rfindIdx_append]
    have h4 : rfindIdx '.' ['.', 'm', 'p', '4'] = some 0 := by decide
    simp [h4]
  have h4sep : rfindIdx '/' ['.', 'm', 'p', '4'] = none := by decide
  have hsepch : rfindIdx '/' [ch] = none := by
    simp [rfindIdx, hsep]
  have hsepIdx : rfindIdx '/' (s.data ++ ['.', 'm', 'p', '4']) = rfindIdx '/' s.data.dropLast := by
    rw [rfindIdx_append, h4sep]
    conv_lhs => rw [← hsplit]
    rw [rfindIdx_append, hsepch]
  have hch_mem : ∀ fI, fI ≤ s.data.dropLast.length →
      ((s.data ++ ['.', 'm', 'p', '4']).drop fI).take (s.data.length - fI) =
        s.data.drop fI ∧ ch ∈ s.data.drop fI := by
    intro fI hfI
    have hfIs : fI ≤ s.data.length := by omega
    constructor
    · rw [List.drop_append_of_le_length hfIs,
        List.take_append_of_le_length (by simp), List.take_of_length_le (by simp)]
    · rw [← hsplit, List.drop_append_of_le_length hfI]
      exact List.mem_append_right _ (by simp)
  have htake : String.mk ((s.data ++ ['.', 'm', 'p', '4']).take s.data.length) = s := by
    rw [List.take_append_of_le_length (le_refl s.data.length),
      List.take_of_length_le (le_refl s.data.length)]
  rw [splitextFst, hdata, hdotIdx, hsepIdx]
  simp only [Option.elim_some]
  cases hfind : rfindIdx '/' s.data.dropLast with
  | none =>
    have hm := hch_mem 0 (Nat.zero_le _)
    simp only [Option.map_none', Option.getD_none]
    split
    · exact htake
    · rename_i hcond
      exact absurd ⟨Nat.zero_le _, List.any_eq_true.mpr ⟨ch, hm.1 ▸ hm.2, by simp [hdot]⟩⟩ hcond
  | some k =>
    have hk := rfindIdx_lt_length hfind
    have hm := hch_mem (k + 1) hk
    simp only [Option.map_some', Option.getD_some]
    split
    · exact htake
    · rename_i hcond
      exact absurd ⟨by omega, List.any_eq_true.mpr ⟨ch, hm.1 ▸ hm.2, by simp [hdot]⟩⟩ hcond

/-- C7: every successful run returns exactly the path derived from the input
by `splitext`, with `"_translated"` inserted before the `.mp4` extension,
and the remux of the original video's visual stream uses the fixed codecs
`libx264` (video) and `aac` (audio); on a standard `<stem>.mp4` input path
the output is `<stem>_translated.mp4`. -/
theorem remux_output_contract :
    (∀ env tr out, process_video env = (tr, some out) →
      out = outputPath env.videoPath ∧
      Event.remuxCall env.videoPath "libx264" "aac" ∈ tr) ∧
    (∀ s : String, (∃ ch, s.data.getLast? = some ch ∧ ch ≠ '.' ∧ ch ≠ '/') →
      outputPath (s ++ ".mp4") = s ++ "_translated.mp4") := by
  constructor
  · intro env tr out hp
    rcases process_video_char env with ⟨_, h⟩ | ⟨_, _, h⟩ | ⟨_, _, _, h⟩ |
      ⟨text, _, _, _, _, ⟨_, h⟩ | ⟨t, _, ⟨_, h⟩ | ⟨_, _, h⟩ | ⟨_, _, h⟩⟩⟩ <;>
      have heq := h.symm.trans hp <;>
      rw [Prod.ext_iff] at heq <;>
      simp only [] at heq
    · exact absurd heq.2 (by simp)
    · exact absurd heq.2 (by simp)
    · exact absurd heq.2 (by simp)
    · exact absurd heq.2 (by simp)
    · exact absurd heq.2 (by simp)
    · exact absurd heq.2 (by simp)
    · refine ⟨(Option.some.inj heq.2).symm, ?_⟩
      rw [← heq.1]
      simp
  · intro s hs
    rw [outputPath, splitextFst_append_mp4 s hs]

/-- Witness for C7: on the concrete path `/tmp/video.mp4` the derived output
is `/tmp/video_translated.mp4`, and the successful run `envOk` issues the
remux with codecs `libx264`/`aac`. -/
theorem remux_output_contract_witness :
    outputPath ("/tmp/video" ++ ".mp4") = "/tmp/video" ++ "_translated.mp4" ∧
    Event.remuxCall envOk.videoPath "libx264" "aac" ∈ (process_video envOk).1 :=
  ⟨remux_output_contract.2 "/tmp/video" ⟨'o', by decide, by decide, by decide⟩,
   (remux_output_contract.1 envOk (process_video envOk).1 (outputPath envOk.videoPath)
      rfl).2⟩

end Translator
